import Mathlib

/-!
Verification of the reorder-strategy engine in
`src/spotifyops/logic/intelligent_reorder.py`.

The file shallowly embeds the module: Python lists of track ids become
`List String`, Python `int` fields become `Int`, Python floats are modelled
exactly over `ℚ` (all arithmetic in the decision logic and the similarity
scorer is on small rationals, so the algebraic claims are settled over ℚ),
and the in-place mutation of `_apply_move_to_list` becomes a function
returning the updated list.  Python's `list.index` (which raises
`ValueError` on a missing element, caught by the callers) is embedded as an
`Option Nat`-returning function.
-/

/-- The `PlaylistMove` dataclass: fields in source order, Python ints. -/
structure PlaylistMove where
  range_start : Int
  insert_before : Int
  range_length : Int
deriving DecidableEq

/-- Effective index of the Python slice endpoint `i` for a list of length
`n` (negative endpoints count from the end, everything is clamped into
`[0, n]`), as used by `l[a:b]` and `del l[a:b]`. -/
def pyIdx (n : Int) (i : Int) : Nat :=
  (if i < 0 then max 0 (n + i) else min i n).toNat

/-- Python `l[a:b]` (step 1). -/
def pySlice (l : List String) (a b : Int) : List String :=
  (l.take (pyIdx l.length b)).drop (pyIdx l.length a)

/-- Python `del l[a:b]` (step 1): the elements with effective index in
`[a, b)` are removed. -/
def pyDelSlice (l : List String) (a b : Int) : List String :=
  l.take (pyIdx l.length a) ++ l.drop (max (pyIdx l.length a) (pyIdx l.length b))

/-- The re-insertion loop of `_apply_move_to_list`:
`for i, item in enumerate(items_to_move): playlist.insert(insert_pos + i, item)`.
Inserting the items one by one at positions `pos, pos+1, ...`; Python's
`list.insert` appends when the position is past the end, which
`take pos ++ item :: drop pos` reproduces. -/
def insertItems : List String → Nat → List String → List String
  | l, _, [] => l
  | l, pos, a :: rest => insertItems (l.take pos ++ a :: l.drop pos) (pos + 1) rest

/-- Embedding of `IntelligentReorderCalculator._apply_move_to_list`.  On an invalid range
(`range_start < 0`, `range_start >= len(playlist)`, or
`range_start + range_length > len(playlist)`) the Python function prints a
warning and returns with the list unchanged; otherwise it extracts the
slice, deletes it, shifts `insert_before` down by `range_length` when it
lies past `range_start`, clamps, and re-inserts item by item. -/
def _apply_move_to_list (playlist : List String) (move : PlaylistMove) : List String :=
  if move.range_start < 0 ∨ (playlist.length : Int) ≤ move.range_start ∨
      (playlist.length : Int) < move.range_start + move.range_length then
    playlist
  else
    let items_to_move := pySlice playlist move.range_start (move.range_start + move.range_length)
    let remaining := pyDelSlice playlist move.range_start (move.range_start + move.range_length)
    let insert_pos : Int :=
      if move.range_start < move.insert_before then move.insert_before - move.range_length
      else move.insert_before
    insertItems remaining (max 0 (min insert_pos (remaining.length : Int))).toNat items_to_move

/-- Python `list.index` restricted to its uses here: the index of the first
occurrence, `none` for the `ValueError` case. -/
def pyIndex (t : String) : List String → Option Nat
  | [] => none
  | a :: rest => if a = t then some 0 else (pyIndex t rest).map (· + 1)

/-- The `sequence_length` while-loop of `_calculate_minimal_moves`: starting
from `L`, keep extending while the next target element equals the next
current element.  The first argument is fuel; the planner passes
`target.length`, which is never exhausted before the loop condition fails
(each step needs `p + L < target.length` and `L` grows by one from `1`). -/
def seqLenAux (target current : List String) (p cp : Nat) : Nat → Nat → Nat
  | 0, L => L
  | r + 1, L =>
    if p + L < target.length ∧ cp + L < current.length ∧
        target.getD (p + L) "" = current.getD (cp + L) "" then
      seqLenAux target current p cp r (L + 1)
    else L

/-- The main loop of `_calculate_minimal_moves`
(`for target_pos in range(len(target))`), with the remaining iteration
count as first `Nat` argument and the loop variable `target_pos` as the
second: invoked with `target.length` and `0`, so the fuel runs out exactly
when the loop ends. -/
def planAux (target : List String) : Nat → Nat → List String → List PlaylistMove
  | 0, _, _ => []
  | k + 1, p, current =>
    match pyIndex (target.getD p "") current with
    | none => planAux target k (p + 1) current
    | some cp =>
      if cp = p then planAux target k (p + 1) current
      else
        let L := seqLenAux target current p cp target.length 1
        let m : PlaylistMove :=
          if p < cp then ⟨(cp : Int), (p : Int), (L : Int)⟩
          else ⟨(cp : Int), (p : Int) + 1, (L : Int)⟩
        m :: planAux target k (p + 1) (_apply_move_to_list current m)

/-- Embedding of `IntelligentReorderCalculator._calculate_minimal_moves`. -/
def _calculate_minimal_moves (original target : List String) : List PlaylistMove :=
  planAux target target.length 0 original

/-- One summand of `_calculate_similarity`: the contribution of
`original[i]` (0 when `new.index` raises, i.e. the `continue` branch). -/
def simTerm (original new : List String) (i : Nat) : ℚ :=
  match pyIndex (original.getD i "") new with
  | none => 0
  | some j =>
    if 1 < original.length then
      1 - |(i : ℚ) - (j : ℚ)| / ((original.length : ℚ) - 1)
    else 1

/-- Embedding of `IntelligentReorderCalculator._calculate_similarity`, with Python float
arithmetic modelled exactly over ℚ. -/
def _calculate_similarity (original new : List String) : ℚ :=
  if original.length ≠ new.length then 0
  else if original.length = 0 then 1
  else ((List.range original.length).map (simTerm original new)).sum / (original.length : ℚ)

/-- Python `set(a) == set(b)`: the two lists have the same elements. -/
def sameSet (a b : List String) : Bool :=
  a.all (fun x => b.contains x) && b.all (fun x => a.contains x)

/-- The dict returned by `calculate_reorder_strategy`.  `none` in an
`Option` field models a key that is absent from the dict (the three
incompatibility returns carry only `strategy` and `reason`) or, for
`moves`, a key that is explicitly `None`.  The dict has a `move_count`
key and no `move_ratio` key. -/
structure StrategyDecision where
  strategy : String
  moves : Option (List PlaylistMove)
  similarity : Option ℚ
  efficiency_gain : Option ℚ
  move_count : Option Nat
  reason : String
deriving DecidableEq

/-- Embedding of `IntelligentReorderCalculator.calculate_reorder_strategy`.  The
rationale strings in the compatible path are f-strings in the source; the
embedding keeps their constant text, as no claim depends on the
interpolated digits.  The internal `move_ratio` variable is
`len(moves) / len(original_order)` (the `if original_order else 1` guard is
vacuous at that point: the empty case returned earlier). -/
def calculate_reorder_strategy (original_order new_order : List String) : StrategyDecision :=
  if original_order = [] ∨ new_order = [] then
    ⟨"full_rewrite", none, none, none, none, "Empty playlist"⟩
  else if original_order.length ≠ new_order.length then
    ⟨"full_rewrite", none, none, none, none, "Different track counts"⟩
  else if sameSet original_order new_order = false then
    ⟨"full_rewrite", none, none, none, none, "Different tracks"⟩
  else
    let similarity := _calculate_similarity original_order new_order
    let moves := _calculate_minimal_moves original_order new_order
    if (0.7 : ℚ) < similarity ∧ (moves.length : ℚ) / (original_order.length : ℚ) < (0.4 : ℚ) then
      ⟨"intelligent_moves", some moves, some similarity,
        some (1 - (moves.length : ℚ) / (original_order.length : ℚ)), some moves.length,
        "High similarity with few moves needed"⟩
    else if (moves.length : ℚ) < (original_order.length : ℚ) * (0.5 : ℚ) then
      ⟨"intelligent_moves", some moves, some similarity,
        some (1 - (moves.length : ℚ) / (original_order.length : ℚ)), some moves.length,
        "Fewer moves than full rewrite"⟩
    else
      ⟨"full_rewrite", none, some similarity, some 0, some moves.length,
        "Too many moves needed - full rewrite more efficient"⟩

/-- Embedding of `IntelligentReorderCalculator.validate_moves`: replays the moves on a
copy of `original` inside `try`; the body only calls
`_apply_move_to_list`, which handles invalid ranges itself and cannot
raise on list inputs, so the function reaches `return True` on every
input and the `except` branch (`return False`) is unreachable. -/
def validate_moves (original : List String) (moves : List PlaylistMove) : Bool :=
  let test_list := moves.foldl _apply_move_to_list original
  let _ := test_list
  true

/-- Embedding of `IntelligentReorderCalculator._try_combine_moves`. -/
def _try_combine_moves (move1 move2 : PlaylistMove) : Option PlaylistMove :=
  if move1.range_start + move1.range_length = move2.range_start ∧
      move1.insert_before = move2.insert_before then
    some ⟨move1.range_start, move1.insert_before, move1.range_length + move2.range_length⟩
  else none

/-- Embedding of `IntelligentReorderCalculator.optimize_moves`: one left-to-right pass;
a combined pair is emitted and both constituents are skipped (`i += 2`),
so the combined move is not reconsidered against the following one. -/
def optimize_moves : List PlaylistMove → List PlaylistMove
  | [] => []
  | [m] => [m]
  | m1 :: m2 :: rest =>
    match _try_combine_moves m1 m2 with
    | some c => c :: optimize_moves rest
    | none => m1 :: optimize_moves (m2 :: rest)

/-- Modelled from the spec: the Move Simulator's reference semantics as
worded in §4.2 and in claim C6 — extract the block
`sequence[range_start : range_start + range_length]`, delete it, set
`insert_pos` to `insert_before - range_length` when
`insert_before > range_start` and to `insert_before` otherwise, clamp
`insert_pos` into `[0, len(remaining)]`, and re-insert the block there in
one splice, preserving its internal order. -/
def applyMoveSpec (sequence : List String) (move : PlaylistMove) : List String :=
  let block := pySlice sequence move.range_start (move.range_start + move.range_length)
  let remaining := pyDelSlice sequence move.range_start (move.range_start + move.range_length)
  let insert_pos : Int :=
    if move.range_start < move.insert_before then move.insert_before - move.range_length
    else move.insert_before
  let clamped := (max 0 (min insert_pos (remaining.length : Int))).toNat
  remaining.take clamped ++ block ++ remaining.drop clamped

/-! ### Helper lemmas -/

/-- Inserting items one by one at consecutive positions splices the whole
block in at once, provided the starting position is in range. -/
lemma insertItems_eq (items : List String) : ∀ (l : List String) (pos : Nat),
    pos ≤ l.length → insertItems l pos items = l.take pos ++ items ++ l.drop pos := by
  induction items with
  | nil => intro l pos h; simp [insertItems]
  | cons a rest ih =>
    intro l pos h
    rw [insertItems]
    rw [ih (l.take pos ++ a :: l.drop pos) (pos + 1)
      (by simp [List.length_take]; omega)]
    have hlen : (l.take pos).length = pos := by simp [List.length_take]; omega
    have h1 : (l.take pos ++ a :: l.drop pos).take (pos + 1) = l.take pos ++ [a] := by
      rw [show pos + 1 = (l.take pos).length + 1 from by rw [hlen]]
      rw [List.take_append]
      rfl
    have h2 : (l.take pos ++ a :: l.drop pos).drop (pos + 1) = l.drop pos := by
      rw [show pos + 1 = (l.take pos).length + 1 from by rw [hlen]]
      rw [List.drop_append]
      rfl
    rw [h1, h2]
    simp

/-- A Nat slice endpoint within bounds is its own effective index. -/
lemma pyIdx_coe (n i : Nat) (h : i ≤ n) : pyIdx (n : Int) (i : Int) = i := by
  unfold pyIdx
  rw [if_neg (by omega)]
  omega

/-! ### C3: out-of-range moves return normally with the list unchanged -/

/-- C3 counterexample: the claim says an out-of-range move makes the Move
Simulator fail with an `InvalidRange` error surfaced to the caller rather
than return normally; in the code the call returns normally and leaves the
sequence unchanged (after printing a warning), as this concrete evaluation
shows for `range_start = 5` on a two-element sequence. -/
theorem apply_move_invalid_range_no_error :
    _apply_move_to_list ["a", "b"] ⟨5, 0, 1⟩ = ["a", "b"] := by decide

/-- C3 (amended): for every sequence and every move with
`range_start < 0`, `range_start >= len(sequence)`, or
`range_start + range_length > len(sequence)`, the Move Simulator returns
normally with the sequence unchanged (printing a warning); no exception is
raised to the caller. -/
theorem apply_move_invalid_range_returns_unchanged (playlist : List String)
    (move : PlaylistMove)
    (h : move.range_start < 0 ∨ (playlist.length : Int) ≤ move.range_start ∨
      (playlist.length : Int) < move.range_start + move.range_length) :
    _apply_move_to_list playlist move = playlist := by
  unfold _apply_move_to_list
  rw [if_pos h]

/-- Witness for the amended C3 at `range_start = -1`. -/
theorem apply_move_invalid_range_returns_unchanged_witness :
    _apply_move_to_list ["x", "y", "z"] ⟨-1, 0, 1⟩ = ["x", "y", "z"] :=
  apply_move_invalid_range_returns_unchanged ["x", "y", "z"] ⟨-1, 0, 1⟩
    (Or.inl (by decide))

/-! ### C10: validate_moves always returns True -/

/-- C10: `validate_moves` returns `True` on every original ordering and
every move list, including out-of-range moves: the `try` body only calls
`_apply_move_to_list`, which is total (invalid ranges are swallowed with a
warning), so the `except` branch returning `False` is unreachable, no
exception escapes, and no comparison against a target is ever made. -/
theorem validate_moves_always_true (original : List String)
    (moves : List PlaylistMove) : validate_moves original moves = true := rfl

/-! ### C2: the Move Optimizer is not idempotent -/

/-- C2 counterexample: one optimizer pass over the three unit moves
`(0,5,1), (1,5,1), (2,5,1)` yields `[(0,5,2), (2,5,1)]`, whose two moves
are again adjacent and mergeable, so a second pass yields `[(0,5,3)]`:
`optimize(optimize(moves)) != optimize(moves)`. -/
theorem optimize_moves_not_idempotent :
    optimize_moves (optimize_moves [⟨0, 5, 1⟩, ⟨1, 5, 1⟩, ⟨2, 5, 1⟩]) ≠
      optimize_moves [(⟨0, 5, 1⟩ : PlaylistMove), ⟨1, 5, 1⟩, ⟨2, 5, 1⟩] := by
  decide

/-- C2 (amended): the single left-to-right pass of `optimize_moves` is
idempotent for move lists of length at most two; for longer lists a
merged pair can become adjacent and mergeable with the following move, so
re-running the optimizer on its own output is not a no-op in general. -/
theorem optimize_moves_idempotent_of_short (moves : List PlaylistMove)
    (h : moves.length ≤ 2) :
    optimize_moves (optimize_moves moves) = optimize_moves moves := by
  match moves with
  | [] => rfl
  | [m] => rfl
  | [m1, m2] =>
    cases hc : _try_combine_moves m1 m2 with
    | none => simp [optimize_moves, hc]
    | some c => simp [optimize_moves, hc]
  | m1 :: m2 :: m3 :: rest => simp only [List.length_cons] at h; omega

/-- Witness for the amended C2 on a two-element move list. -/
theorem optimize_moves_idempotent_of_short_witness :
    optimize_moves (optimize_moves [(⟨0, 0, 1⟩ : PlaylistMove), ⟨4, 2, 1⟩]) =
      optimize_moves [(⟨0, 0, 1⟩ : PlaylistMove), ⟨4, 2, 1⟩] :=
  optimize_moves_idempotent_of_short [⟨0, 0, 1⟩, ⟨4, 2, 1⟩] (by decide)

/-! ### C6: the Move Simulator matches the spec reference semantics -/

/-- C6: on every in-bounds move (`0 ≤ range_start < len(sequence)` and
`range_start + range_length ≤ len(sequence)`), `_apply_move_to_list`
computes exactly the spec's reference semantics: extract the slice, delete
it, shift `insert_before` down by `range_length` when it exceeds
`range_start`, clamp into `[0, len(remaining)]`, and splice the block back
in with its internal order preserved. -/
theorem apply_move_matches_spec (sequence : List String) (move : PlaylistMove)
    (h0 : 0 ≤ move.range_start) (h1 : move.range_start < (sequence.length : Int))
    (h2 : move.range_start + move.range_length ≤ (sequence.length : Int)) :
    _apply_move_to_list sequence move = applyMoveSpec sequence move := by
  unfold _apply_move_to_list applyMoveSpec
  rw [if_neg (by omega)]
  apply insertItems_eq
  exact Int.toNat_le.mpr (max_le (Int.ofNat_nonneg _) (min_le_right _ _))

/-- Witness for C6 on a concrete in-bounds block move. -/
theorem apply_move_matches_spec_witness :
    _apply_move_to_list ["a", "b", "c", "d"] ⟨1, 4, 2⟩ =
      applyMoveSpec ["a", "b", "c", "d"] ⟨1, 4, 2⟩ :=
  apply_move_matches_spec ["a", "b", "c", "d"] ⟨1, 4, 2⟩ (by decide) (by decide)
    (by decide)

/-! ### Properties of pyIndex (Python list.index) -/

/-- A found index is in range, points at the element, and is the first
occurrence. -/
lemma pyIndex_spec : ∀ (l : List String) (t : String) (j : Nat),
    pyIndex t l = some j →
    j < l.length ∧ l[j]? = some t ∧ ∀ i, i < j → l[i]? ≠ some t := by
  intro l
  induction l with
  | nil => intro t j h; simp [pyIndex] at h
  | cons a rest ih =>
    intro t j h
    rw [pyIndex] at h
    by_cases hat : a = t
    · rw [if_pos hat] at h
      obtain rfl : (0 : Nat) = j := Option.some.inj h
      refine ⟨by simp, by simp [hat], ?_⟩
      intro i hi
      omega
    · rw [if_neg hat] at h
      obtain ⟨i0, hi0, rfl⟩ := Option.map_eq_some'.mp h
      obtain ⟨hl, hg, hf⟩ := ih t i0 hi0
      refine ⟨by simp; omega, by simpa using hg, ?_⟩
      intro i hi
      cases i with
      | zero => simp [hat]
      | succ i2 => simpa using hf i2 (by omega)

/-- An element of the list is found by `pyIndex`. -/
lemma pyIndex_of_mem : ∀ (l : List String) (t : String), t ∈ l →
    ∃ j, pyIndex t l = some j := by
  intro l
  induction l with
  | nil => intro t h; simp at h
  | cons a rest ih =>
    intro t h
    by_cases hat : a = t
    · exact ⟨0, by rw [pyIndex, if_pos hat]⟩
    · have hmem : t ∈ rest := by
        rcases List.mem_cons.mp h with h1 | h1
        · exact absurd h1.symm hat
        · exact h1
      obtain ⟨j, hj⟩ := ih t hmem
      exact ⟨j + 1, by rw [pyIndex, if_neg hat, hj]; rfl⟩

/-- An in-range `getD` with any default is an element of the list. -/
lemma getD_mem (l : List String) (i : Nat) (h : i < l.length) :
    l.getD i "" ∈ l := by
  rw [List.getD_eq_getElem _ _ h]
  exact List.getElem_mem h

/-- On a duplicate-free list, looking up the element at position `i`
returns `i` itself. -/
lemma pyIndex_getD_self : ∀ (l : List String), l.Nodup → ∀ i, i < l.length →
    pyIndex (l.getD i "") l = some i := by
  intro l
  induction l with
  | nil => intro _ i h; simp at h
  | cons a rest ih =>
    intro hnd i hi
    cases i with
    | zero => simp [pyIndex]
    | succ i2 =>
      have hrest : i2 < rest.length := by simpa using hi
      have hne : a ≠ rest.getD i2 "" := by
        intro he
        have hmem := getD_mem rest i2 hrest
        rw [← he] at hmem
        exact (List.nodup_cons.mp hnd).1 hmem
      have hgd : (a :: rest).getD (i2 + 1) "" = rest.getD i2 "" := by
        simp [List.getD]
      rw [pyIndex, hgd, if_neg hne, ih (List.nodup_cons.mp hnd).2 i2 hrest]
      rfl

/-! ### Similarity scorer bounds (C7 and C4 support) -/

/-- Each summand of the scorer is nonnegative when both lists have the
same length. -/
lemma simTerm_nonneg (original new : List String) (i : Nat)
    (hi : i < original.length) (hlen : new.length = original.length) :
    0 ≤ simTerm original new i := by
  unfold simTerm
  cases hj : pyIndex (original.getD i "") new with
  | none => simp
  | some j =>
    have hjl : j < new.length := (pyIndex_spec new _ j hj).1
    split_ifs with h1
    · have hpos : (0 : ℚ) < (original.length : ℚ) - 1 := by
        have : (1 : ℚ) < (original.length : ℚ) := by exact_mod_cast h1
        linarith
      rw [sub_nonneg, div_le_one hpos]
      have hiq : (i : ℚ) + 1 ≤ (original.length : ℚ) := by exact_mod_cast hi
      have hjq : (j : ℚ) + 1 ≤ (original.length : ℚ) := by
        rw [← hlen]; exact_mod_cast hjl
      have h0i : (0 : ℚ) ≤ (i : ℚ) := Nat.cast_nonneg i
      have h0j : (0 : ℚ) ≤ (j : ℚ) := Nat.cast_nonneg j
      refine abs_le.mpr ⟨by linarith, by linarith⟩
    · norm_num

/-- Each summand of the scorer is at most one. -/
lemma simTerm_le_one (original new : List String) (i : Nat) :
    simTerm original new i ≤ 1 := by
  unfold simTerm
  cases hj : pyIndex (original.getD i "") new with
  | none => norm_num
  | some j =>
    split_ifs with h1
    · have hpos : (0 : ℚ) < (original.length : ℚ) - 1 := by
        have : (1 : ℚ) < (original.length : ℚ) := by exact_mod_cast h1
        linarith
      have hnn : 0 ≤ |(i : ℚ) - (j : ℚ)| / ((original.length : ℚ) - 1) :=
        div_nonneg (abs_nonneg _) (le_of_lt hpos)
      linarith
    · exact le_refl 1

/-- A list of rationals that all lie in [0,1] sums into [0, length]. -/
lemma sum_unit_bounds : ∀ (l : List ℚ), (∀ x ∈ l, 0 ≤ x ∧ x ≤ 1) →
    0 ≤ l.sum ∧ l.sum ≤ (l.length : ℚ) := by
  intro l
  induction l with
  | nil => intro _; simp
  | cons a rest ih =>
    intro h
    have ha := h a (List.mem_cons_self a rest)
    have hr := ih (fun x hx => h x (List.mem_cons_of_mem a hx))
    simp only [List.sum_cons, List.length_cons]
    push_cast
    exact ⟨by linarith [hr.1, ha.1], by linarith [hr.2, ha.2]⟩

/-- The Similarity Scorer always returns a value in the unit interval. -/
lemma similarity_bounds (original new : List String) :
    0 ≤ _calculate_similarity original new ∧
      _calculate_similarity original new ≤ 1 := by
  unfold _calculate_similarity
  split_ifs with h1 h2
  · norm_num
  · norm_num
  · have hlen : new.length = original.length := (not_ne_iff.mp h1).symm
    have hn : 0 < original.length := Nat.pos_of_ne_zero h2
    have hnq : (0 : ℚ) < (original.length : ℚ) := by exact_mod_cast hn
    have hb : ∀ x ∈ (List.range original.length).map (simTerm original new),
        0 ≤ x ∧ x ≤ 1 := by
      intro x hx
      obtain ⟨i, hi, rfl⟩ := List.mem_map.mp hx
      exact ⟨simTerm_nonneg original new i (List.mem_range.mp hi) hlen,
        simTerm_le_one original new i⟩
    obtain ⟨hs0, hs1⟩ := sum_unit_bounds _ hb
    have hlm : (((List.range original.length).map (simTerm original new)).length : ℚ) =
        (original.length : ℚ) := by simp
    rw [hlm] at hs1
    exact ⟨div_nonneg hs0 (le_of_lt hnq), by rw [div_le_one hnq]; exact hs1⟩

/-- On a duplicate-free ordering the scorer gives itself similarity 1. -/
lemma similarity_self (l : List String) (hnd : l.Nodup) :
    _calculate_similarity l l = 1 := by
  unfold _calculate_similarity
  rw [if_neg (by simp)]
  by_cases h0 : l.length = 0
  · rw [if_pos h0]
  · rw [if_neg h0]
    have hmap : (List.range l.length).map (simTerm l l) =
        (List.range l.length).map (fun _ => (1 : ℚ)) := by
      apply List.map_congr_left
      intro i hi
      have hi2 := List.mem_range.mp hi
      unfold simTerm
      rw [pyIndex_getD_self l hnd i hi2]
      by_cases h1 : 1 < l.length
      · simp [h1]
      · simp [h1]
    rw [hmap, List.map_const', List.sum_replicate]
    simp only [List.length_range, nsmul_eq_mul, mul_one]
    exact div_self (Nat.cast_ne_zero.mpr h0)

/-! ### C7: similarity bounds and the identity case -/

/-- C7: for every pair of compatible orderings (same multiset, elements
distinct) the Similarity Scorer returns a value in [0,1], and it returns
exactly 1 when the orderings are equal — including the empty and
single-element cases.  Python float arithmetic is modelled exactly over
ℚ. -/
theorem similarity_in_unit_interval (original new : List String)
    (hcompat : original.Perm new) (hnd : original.Nodup) :
    (0 ≤ _calculate_similarity original new ∧
      _calculate_similarity original new ≤ 1) ∧
    (original = new → _calculate_similarity original new = 1) := by
  refine ⟨similarity_bounds original new, ?_⟩
  intro he
  subst he
  exact similarity_self original hnd

/-- Witness for C7 at a concrete identical pair. -/
theorem similarity_in_unit_interval_witness :
    0 ≤ _calculate_similarity ["a", "b", "c"] ["a", "b", "c"] ∧
    _calculate_similarity ["a", "b", "c"] ["a", "b", "c"] = 1 :=
  ⟨(similarity_in_unit_interval ["a", "b", "c"] ["a", "b", "c"] (by decide)
      (by decide)).1.1,
   (similarity_in_unit_interval ["a", "b", "c"] ["a", "b", "c"] (by decide)
      (by decide)).2 rfl⟩

/-! ### C5: incompatible inputs fall back to full rewrite -/

/-- C5: for every incompatible pair (either ordering empty, different
lengths, or different element sets) the Strategy Selector returns a
`full_rewrite` decision with one of the three explanatory rationales and
plans no moves. -/
theorem incompatible_full_rewrite (original_order new_order : List String)
    (h : original_order = [] ∨ new_order = [] ∨
      original_order.length ≠ new_order.length ∨
      sameSet original_order new_order = false) :
    (calculate_reorder_strategy original_order new_order).strategy =
      "full_rewrite" ∧
    (calculate_reorder_strategy original_order new_order).moves = none ∧
    ((calculate_reorder_strategy original_order new_order).reason =
        "Empty playlist" ∨
      (calculate_reorder_strategy original_order new_order).reason =
        "Different track counts" ∨
      (calculate_reorder_strategy original_order new_order).reason =
        "Different tracks") := by
  simp only [calculate_reorder_strategy]
  split_ifs with h1 h2 h3 h4 h5
  · exact ⟨rfl, rfl, Or.inl rfl⟩
  · exact ⟨rfl, rfl, Or.inr (Or.inl rfl)⟩
  · exact ⟨rfl, rfl, Or.inr (Or.inr rfl)⟩
  all_goals
    exfalso
    rcases h with h | h | h | h
    · exact h1 (Or.inl h)
    · exact h1 (Or.inr h)
    · exact h2 h
    · exact h3 h

/-- Witness for C5 at the three concrete pairs named by the spec. -/
theorem incompatible_full_rewrite_witness :
    (calculate_reorder_strategy [] ["a"]).strategy = "full_rewrite" ∧
    (calculate_reorder_strategy ["a", "b"] ["a", "b", "c"]).strategy =
      "full_rewrite" ∧
    (calculate_reorder_strategy ["a", "b"] ["b", "c"]).strategy =
      "full_rewrite" :=
  ⟨(incompatible_full_rewrite [] ["a"] (Or.inl rfl)).1,
   (incompatible_full_rewrite ["a", "b"] ["a", "b", "c"]
      (Or.inr (Or.inr (Or.inl (by decide))))).1,
   (incompatible_full_rewrite ["a", "b"] ["b", "c"]
      (Or.inr (Or.inr (Or.inr (by decide))))).1⟩

/-! ### C4: which fields a Strategy Decision carries -/

/-- C4 counterexample: `decide([], ["a"])` returns a dict with no
`similarity` key and no `efficiency_gain` key, so not every decision
contains a similarity in [0,1], a move_ratio, and an efficiency_gain (no
decision ever carries a `move_ratio` key at all — the dict stores
`move_count`). -/
theorem strategy_decision_missing_fields :
    (calculate_reorder_strategy [] ["a"]).similarity = none ∧
    (calculate_reorder_strategy [] ["a"]).efficiency_gain = none := by decide

/-- C4 (amended): every decision contains the kind and a rationale and
carries the moves list exactly when the kind is `intelligent_moves`; on
compatible inputs it additionally carries `similarity` (a value in [0,1]),
`efficiency_gain`, and `move_count` (there is no `move_ratio` key); on
incompatible inputs those numeric keys are absent. -/
theorem strategy_decision_fields (original_order new_order : List String) :
    ((calculate_reorder_strategy original_order new_order).moves.isSome = true ↔
      (calculate_reorder_strategy original_order new_order).strategy =
        "intelligent_moves") ∧
    (original_order ≠ [] → new_order ≠ [] →
      original_order.length = new_order.length →
      sameSet original_order new_order = true →
      (∃ s, (calculate_reorder_strategy original_order new_order).similarity =
          some s ∧ 0 ≤ s ∧ s ≤ 1) ∧
      (calculate_reorder_strategy original_order
        new_order).efficiency_gain.isSome = true ∧
      (calculate_reorder_strategy original_order
        new_order).move_count.isSome = true) ∧
    ((original_order = [] ∨ new_order = [] ∨
        original_order.length ≠ new_order.length ∨
        sameSet original_order new_order = false) →
      (calculate_reorder_strategy original_order new_order).similarity = none ∧
      (calculate_reorder_strategy original_order
        new_order).efficiency_gain = none ∧
      (calculate_reorder_strategy original_order
        new_order).move_count = none) := by
  simp only [calculate_reorder_strategy]
  split_ifs with h1 h2 h3 h4 h5
  · refine ⟨by simp, ?_, fun _ => ⟨rfl, rfl, rfl⟩⟩
    intro ha hb _ _
    rcases h1 with h | h
    · exact absurd h ha
    · exact absurd h hb
  · refine ⟨by simp, ?_, fun _ => ⟨rfl, rfl, rfl⟩⟩
    intro _ _ hl _
    exact absurd hl h2
  · refine ⟨by simp, ?_, fun _ => ⟨rfl, rfl, rfl⟩⟩
    intro _ _ _ hs
    rw [h3] at hs
    exact Bool.noConfusion hs
  all_goals
    refine ⟨by simp, ?_, ?_⟩
  · exact fun _ _ _ _ =>
      ⟨⟨_calculate_similarity original_order new_order, rfl,
        (similarity_bounds original_order new_order).1,
        (similarity_bounds original_order new_order).2⟩, rfl, rfl⟩
  · intro h
    exfalso
    rcases h with h | h | h | h
    · exact h1 (Or.inl h)
    · exact h1 (Or.inr h)
    · exact h2 h
    · exact h3 h
  · exact fun _ _ _ _ =>
      ⟨⟨_calculate_similarity original_order new_order, rfl,
        (similarity_bounds original_order new_order).1,
        (similarity_bounds original_order new_order).2⟩, rfl, rfl⟩
  · intro h
    exfalso
    rcases h with h | h | h | h
    · exact h1 (Or.inl h)
    · exact h1 (Or.inr h)
    · exact h2 h
    · exact h3 h
  · exact fun _ _ _ _ =>
      ⟨⟨_calculate_similarity original_order new_order, rfl,
        (similarity_bounds original_order new_order).1,
        (similarity_bounds original_order new_order).2⟩, rfl, rfl⟩
  · intro h
    exfalso
    rcases h with h | h | h | h
    · exact h1 (Or.inl h)
    · exact h1 (Or.inr h)
    · exact h2 h
    · exact h3 h

/-- Witness for the amended C4 at a concrete compatible pair. -/
theorem strategy_decision_fields_witness :
    (∃ s, (calculate_reorder_strategy ["a", "b"] ["b", "a"]).similarity =
        some s ∧ 0 ≤ s ∧ s ≤ 1) ∧
    (calculate_reorder_strategy ["a", "b"] ["b", "a"]).move_count.isSome =
      true := by
  obtain ⟨-, h2, -⟩ := strategy_decision_fields ["a", "b"] ["b", "a"]
  obtain ⟨hs, -, hm⟩ := h2 (by decide) (by decide) (by decide) (by decide)
  exact ⟨hs, hm⟩

/-! ### C9: the first decision rule is subsumed by the second -/

/-- C9: on compatible non-empty inputs the chosen kind is
`intelligent_moves` iff `len(moves) < 0.5 * len(original)`.  In
particular the first rule (`similarity > 0.7` and `move_ratio < 0.4`)
implies the second (`len(moves) < 0.5 * len(original)`), so the
similarity value never changes which kind is chosen, only which rationale
is emitted. -/
theorem strategy_kind_iff_half (original_order new_order : List String)
    (ha : original_order ≠ []) (hb : new_order ≠ [])
    (hl : original_order.length = new_order.length)
    (hs : sameSet original_order new_order = true) :
    ((calculate_reorder_strategy original_order new_order).strategy =
        "intelligent_moves" ↔
      ((_calculate_minimal_moves original_order new_order).length : ℚ) <
        (0.5 : ℚ) * (original_order.length : ℚ)) := by
  have hn : 0 < original_order.length := List.length_pos_of_ne_nil ha
  have hnq : (0 : ℚ) < (original_order.length : ℚ) := by exact_mod_cast hn
  simp only [calculate_reorder_strategy]
  rw [if_neg (by push_neg; exact ⟨ha, hb⟩), if_neg (not_ne_iff.mpr hl),
    if_neg (by simp [hs])]
  split_ifs with hA hB
  · constructor
    · intro _
      have hr := hA.2
      rw [div_lt_iff₀ hnq] at hr
      norm_num at hr ⊢
      linarith
    · intro _
      rfl
  · constructor
    · intro _
      rw [mul_comm]
      exact hB
    · intro _
      rfl
  · constructor
    · intro hfalse
      exact absurd (show ("full_rewrite" : String) = "intelligent_moves" from hfalse)
        (by decide)
    · intro hlt
      exfalso
      apply hB
      rw [mul_comm] at hlt
      exact hlt

/-- Witness for C9 at a concrete compatible pair where one move suffices. -/
theorem strategy_kind_iff_half_witness :
    (calculate_reorder_strategy ["a", "b", "c"] ["a", "c", "b"]).strategy =
      "intelligent_moves" :=
  (strategy_kind_iff_half ["a", "b", "c"] ["a", "c", "b"] (by decide) (by decide)
    (by decide) (by decide)).mpr (by
      rw [show (_calculate_minimal_moves ["a", "b", "c"] ["a", "c", "b"]).length = 1
          from by decide,
        show (["a", "b", "c"] : List String).length = 3 from rfl]
      norm_num)

/-! ### C8: the planner emits at most one move per target position -/

/-- Each loop iteration of the planner appends at most one move. -/
lemma planAux_length_le (target : List String) :
    ∀ (k p : Nat) (current : List String),
      (planAux target k p current).length ≤ k := by
  intro k
  induction k with
  | zero => intro p current; simp [planAux]
  | succ k ih =>
    intro p current
    rw [planAux]
    cases hpi : pyIndex (target.getD p "") current with
    | none => exact le_trans (ih (p + 1) current) (Nat.le_succ k)
    | some cp =>
      dsimp only
      by_cases hc : cp = p
      · rw [if_pos hc]
        exact le_trans (ih (p + 1) current) (Nat.le_succ k)
      · rw [if_neg hc]
        simp only [List.length_cons]
        exact Nat.succ_le_succ (ih (p + 1) _)

/-- C8: for compatible orderings (same multiset) the Minimal Move Planner
returns at most `len(original)` moves. -/
theorem planner_move_count_le (original target : List String)
    (hcompat : original.Perm target) :
    (_calculate_minimal_moves original target).length ≤ original.length := by
  unfold _calculate_minimal_moves
  rw [hcompat.length_eq]
  exact planAux_length_le target target.length 0 original

/-- Witness for C8 on the reverse of a five-element ordering. -/
theorem planner_move_count_le_witness :
    (_calculate_minimal_moves ["a", "b", "c", "d", "e"]
      ["e", "d", "c", "b", "a"]).length ≤ 5 :=
  planner_move_count_le ["a", "b", "c", "d", "e"] ["e", "d", "c", "b", "a"]
    (by decide)

/-! ### C1: replaying the planned moves reproduces the target -/

/-- Properties of the batching loop: the computed run length only grows,
stays in bounds on both lists, and every extended position matches. -/
lemma seqLenAux_spec (target current : List String) (p cp : Nat) :
    ∀ (r L : Nat), cp + L ≤ current.length → p + L ≤ target.length →
      L ≤ seqLenAux target current p cp r L ∧
      cp + seqLenAux target current p cp r L ≤ current.length ∧
      p + seqLenAux target current p cp r L ≤ target.length ∧
      (∀ k, L ≤ k → k < seqLenAux target current p cp r L →
        target.getD (p + k) "" = current.getD (cp + k) "") := by
  intro r
  induction r with
  | zero =>
    intro L h2 h3
    simp only [seqLenAux]
    exact ⟨le_refl L, h2, h3, fun k hk1 hk2 => absurd hk2 (by omega)⟩
  | succ r ih =>
    intro L h2 h3
    simp only [seqLenAux]
    split_ifs with hc
    · obtain ⟨c1, c2, c3⟩ := hc
      obtain ⟨d1, d2, d3, d4⟩ := ih (L + 1) (by omega) (by omega)
      refine ⟨by omega, d2, d3, ?_⟩
      intro k hk1 hk2
      rcases Nat.eq_or_lt_of_le hk1 with rfl | hlt
      · exact c3
      · exact d4 k (by omega) hk2
    · exact ⟨le_refl L, h2, h3, fun k hk1 hk2 => absurd hk2 (by omega)⟩

/-- Shape of a backward block move as the planner emits it
(`range_start = cp`, `insert_before = p < cp`, in-bounds): the block of
length `L` at `cp` lands at position `p`. -/
lemma apply_move_block (l : List String) (cp p L : Nat) (hp : p < cp)
    (hcp : cp < l.length) (hL : cp + L ≤ l.length) (hL1 : 1 ≤ L) :
    _apply_move_to_list l ⟨(cp : Int), (p : Int), (L : Int)⟩ =
      l.take p ++ ((l.drop cp).take L ++
        ((l.take cp).drop p ++ l.drop (cp + L))) := by
  unfold _apply_move_to_list
  dsimp only
  rw [if_neg (by omega)]
  have e1 : pyIdx (l.length : Int) (cp : Int) = cp :=
    pyIdx_coe l.length cp (le_of_lt hcp)
  have e2 : pyIdx (l.length : Int) ((cp : Int) + (L : Int)) = cp + L := by
    rw [show ((cp : Int) + (L : Int)) = ((cp + L : Nat) : Int) from by push_cast; ring]
    exact pyIdx_coe l.length (cp + L) hL
  simp only [pySlice, pyDelSlice, e1, e2]
  rw [max_eq_right (Nat.le_add_right cp L)]
  rw [if_neg (by omega)]
  have hrem : (l.take cp ++ l.drop (cp + L)).length = l.length - L := by
    simp only [List.length_append, List.length_take, List.length_drop]
    omega
  have hclamp : (max 0 (min ((p : Nat) : Int)
      ((l.take cp ++ l.drop (cp + L)).length : Int))).toNat = p := by
    rw [hrem]
    omega
  rw [hclamp]
  rw [insertItems_eq _ _ _ (by rw [hrem]; omega)]
  have hslice : (l.take (cp + L)).drop cp = (l.drop cp).take L := by
    rw [List.take_drop]
  have hdp : (l.take cp ++ l.drop (cp + L)).drop p =
      (l.take cp).drop p ++ l.drop (cp + L) :=
    List.drop_append_of_le_length (by simp [List.length_take]; omega)
  rw [hslice, hdp]
  rw [List.take_append_of_le_length (by simp [List.length_take]; omega)]
  rw [List.take_take, min_eq_left (le_of_lt hp)]
  rw [List.append_assoc]

/-- Moving the middle block of a four-way split to the front of the cut
point is a permutation. -/
lemma perm_swap_blocks (A B C D : List String) :
    (A ++ (C ++ (B ++ D))).Perm (A ++ (B ++ (C ++ D))) := by
  apply List.Perm.append_left
  rw [← List.append_assoc, ← List.append_assoc]
  exact List.perm_append_comm.append_right D

/-- Four-way split of a list at `p ≤ cp ≤ cp + L ≤ length`. -/
lemma take_drop_decomp (l : List String) (p cp L : Nat) (hp : p ≤ cp)
    (hL : cp + L ≤ l.length) :
    l = l.take p ++ ((l.take cp).drop p ++
      ((l.drop cp).take L ++ l.drop (cp + L))) := by
  have h1 : l.take cp = l.take p ++ (l.take cp).drop p := by
    conv_lhs => rw [← List.take_append_drop p (l.take cp)]
    rw [List.take_take, min_eq_left hp]
  have h2 : l.drop cp = (l.drop cp).take L ++ l.drop (cp + L) := by
    conv_lhs => rw [← List.take_append_drop L (l.drop cp)]
    rw [List.drop_drop]
  calc l = l.take cp ++ l.drop cp := (List.take_append_drop cp l).symm
    _ = (l.take p ++ (l.take cp).drop p) ++
        ((l.drop cp).take L ++ l.drop (cp + L)) := by rw [← h1, ← h2]
    _ = l.take p ++ ((l.take cp).drop p ++
        ((l.drop cp).take L ++ l.drop (cp + L))) := by rw [List.append_assoc]

/-- The block the planner batches out of `current` is exactly the next `L`
elements of `target` starting at `p`. -/
lemma planner_block_eq (target current : List String) (p cp L : Nat)
    (hp : p < target.length)
    (hcg : current[cp]? = some (target.getD p ""))
    (hmatch : ∀ k, 1 ≤ k → k < L →
      target.getD (p + k) "" = current.getD (cp + k) "")
    (hLc : cp + L ≤ current.length) (hLt : p + L ≤ target.length) :
    (current.drop cp).take L = (target.drop p).take L := by
  apply List.ext_getElem?
  intro n
  by_cases hn : n < L
  · rw [List.getElem?_take_of_lt hn, List.getElem?_take_of_lt hn,
      List.getElem?_drop, List.getElem?_drop]
    rcases Nat.eq_zero_or_pos n with rfl | h0
    · rw [Nat.add_zero, Nat.add_zero, hcg, List.getElem?_eq_getElem hp,
        List.getD_eq_getElem _ _ hp]
    · have hm := hmatch n h0 hn
      have hc1 : cp + n < current.length := by omega
      have ht1 : p + n < target.length := by omega
      rw [List.getElem?_eq_getElem hc1, List.getElem?_eq_getElem ht1]
      rw [List.getD_eq_getElem _ _ ht1, List.getD_eq_getElem _ _ hc1] at hm
      exact congrArg some hm.symm
  · have l1 : ((current.drop cp).take L).length = L := by
      simp only [List.length_take, List.length_drop]
      omega
    have l2 : ((target.drop p).take L).length = L := by
      simp only [List.length_take, List.length_drop]
      omega
    rw [List.getElem?_eq_none (by rw [l1]; omega),
      List.getElem?_eq_none (by rw [l2]; omega)]

/-- Loop invariant of the planner: if `current` is a permutation of a
duplicate-free `target` agreeing with it on the first `p` positions, then
replaying the moves planned from position `p` on (with `k` iterations
remaining) transforms `current` into `target`. -/
lemma planAux_correct (target : List String) (hnd : target.Nodup) :
    ∀ (k p : Nat) (current : List String), k + p = target.length →
      current.Perm target → current.take p = target.take p →
      (planAux target k p current).foldl _apply_move_to_list current = target := by
  intro k
  induction k with
  | zero =>
    intro p current hk hperm hpre
    simp only [planAux, List.foldl_nil]
    have hlen : current.length = target.length := hperm.length_eq
    rw [List.take_of_length_le (by omega), List.take_of_length_le (by omega)] at hpre
    exact hpre
  | succ k ih =>
    intro p current hk hperm hpre
    have hp : p < target.length := by omega
    have hlen : current.length = target.length := hperm.length_eq
    have htmem : target.getD p "" ∈ target := getD_mem target p hp
    have htc : target.getD p "" ∈ current := hperm.mem_iff.mpr htmem
    obtain ⟨cp, hcp⟩ := pyIndex_of_mem current _ htc
    obtain ⟨hcplt, hcpget, hcpfirst⟩ := pyIndex_spec current _ cp hcp
    have htp : target[p]? = some (target.getD p "") := by
      rw [List.getElem?_eq_getElem hp, List.getD_eq_getElem _ _ hp]
    have hple : p ≤ cp := by
      by_contra hcon
      push_neg at hcon
      have h1 : current[cp]? = target[cp]? := by
        have h2 := congrArg (fun l => l[cp]?) hpre
        simpa [List.getElem?_take_of_lt hcon] using h2
      have h3 : target[cp]? = some (target.getD p "") := h1 ▸ hcpget
      have h4 : cp = p := List.getElem?_inj (by omega) hnd (h3.trans htp.symm)
      omega
    simp only [planAux]
    rw [hcp]
    dsimp only
    by_cases hcpp : cp = p
    · rw [if_pos hcpp]
      apply ih (p + 1) current (by omega) hperm
      rw [List.take_succ, List.take_succ, hpre]
      congr 1
      rw [show current[p]? = some (target.getD p "") from hcpp ▸ hcpget, htp]
    · rw [if_neg hcpp]
      have hpc : p < cp := lt_of_le_of_ne hple (fun he => hcpp he.symm)
      rw [if_pos hpc]
      rw [List.foldl_cons]
      obtain ⟨hL1, hLc, hLt, hmatch⟩ :=
        seqLenAux_spec target current p cp target.length 1 (by omega) (by omega)
      rw [apply_move_block current cp p (seqLenAux target current p cp target.length 1)
        hpc hcplt hLc hL1]
      apply ih (p + 1) _ (by omega)
      · have hdec := take_drop_decomp current p cp
          (seqLenAux target current p cp target.length 1) (le_of_lt hpc) hLc
        have hpermX : (current.take p ++ ((current.take cp).drop p ++
            ((current.drop cp).take (seqLenAux target current p cp target.length 1) ++
              current.drop (cp + seqLenAux target current p cp target.length 1)))).Perm
            target := by
          rw [← hdec]
          exact hperm
        exact (perm_swap_blocks (current.take p) ((current.take cp).drop p)
          ((current.drop cp).take (seqLenAux target current p cp target.length 1))
          (current.drop (cp + seqLenAux target current p cp target.length 1))).trans
          hpermX
      · have hblock : (current.drop cp).take (seqLenAux target current p cp target.length 1) =
            (target.drop p).take (seqLenAux target current p cp target.length 1) :=
          planner_block_eq target current p cp _ hp hcpget hmatch hLc hLt
        have hAlen : (current.take p).length = p := by
          simp only [List.length_take]
          omega
        have hClen : ((current.drop cp).take
            (seqLenAux target current p cp target.length 1)).length =
            seqLenAux target current p cp target.length 1 := by
          simp only [List.length_take, List.length_drop]
          omega
        have hCeq : (current.take p ++ ((current.drop cp).take
            (seqLenAux target current p cp target.length 1) ++
            ((current.take cp).drop p ++
              current.drop (cp + seqLenAux target current p cp target.length 1)))).take
            (p + seqLenAux target current p cp target.length 1) =
            target.take (p + seqLenAux target current p cp target.length 1) := by
          rw [show p + seqLenAux target current p cp target.length 1 =
            (current.take p).length + seqLenAux target current p cp target.length 1
            from by rw [hAlen]]
          rw [List.take_append]
          rw [List.take_append_of_le_length (le_of_eq hClen.symm)]
          rw [List.take_of_length_le (le_of_eq hClen)]
          rw [hAlen]
          rw [List.take_add]
          rw [hpre, hblock]
        have h1L : p + 1 ≤ p + seqLenAux target current p cp target.length 1 := by
          omega
        have h2 := congrArg (fun l => List.take (p + 1) l) hCeq
        simpa [List.take_take, min_eq_left h1L] using h2

/-- C1: for every pair of orderings that are permutations of each other
with all elements distinct, replaying the move list returned by
`_calculate_minimal_moves`, in order, through `_apply_move_to_list`
against a copy of `original` produces exactly `target`. -/
theorem planner_roundtrip (original target : List String)
    (hnd1 : original.Nodup) (hnd2 : target.Nodup)
    (hperm : original.Perm target) :
    (_calculate_minimal_moves original target).foldl _apply_move_to_list
      original = target := by
  unfold _calculate_minimal_moves
  exact planAux_correct target hnd2 target.length 0 original (by omega) hperm
    (by simp)

/-- Witness for C1 on the spec's concrete scenario B. -/
theorem planner_roundtrip_witness :
    (_calculate_minimal_moves ["A", "B", "C", "D", "E", "F"]
      ["D", "A", "B", "F", "C", "E"]).foldl _apply_move_to_list
      ["A", "B", "C", "D", "E", "F"] = ["D", "A", "B", "F", "C", "E"] :=
  planner_roundtrip ["A", "B", "C", "D", "E", "F"] ["D", "A", "B", "F", "C", "E"]
    (by decide) (by decide) (by decide)
